import Mathlib

/-
Verification of the causal-graph components (pairwise-judgment graph
aggregator, discovery orchestration loop, input-record lookup helper, and
graph-viewer edge filter) against their natural-language specification.

Variables are dataset column names, embedded as `String`.  Judgments are
the sentinel values produced by the external judgment process; the spec
fixes only a three-value domain, which we encode by three distinguished
strings.  The aggregator itself (`CausalGraphBuilder` in the source tree)
is referenced by the `causal_graph_llm` component but its module is not
part of the sources at hand, so its `update`/`export` operations are
modelled from the spec (section 4.1).  Everything else (`run` of
`CausalGraphDiscovery`, `get_input_value_by_name`, the viewer's
edge-building loop) is embedded directly from the source.
-/

set_option maxHeartbeats 1000000

/-- A host-platform input record (`ComponentInput` in the source): a key
naming the input and an attached value.  The value type is opaque to the
lookup helper, so it is a type parameter here. -/
structure ComponentInput (V : Type) where
  key : String
  value : V

/-- Embeds `get_input_value_by_name` from `src/causal_graph_llm/__init__.py`
(lines 21-25; the identical helper also appears in the other components):
scan the records in order, return the value of the first record whose key
equals the requested name, else the default. -/
def get_input_value_by_name {V : Type} (input_name : String)
    (inputs : List (ComponentInput V)) (default : V) : V :=
  match inputs with
  | [] => default
  | inp :: rest =>
    if inp.key = input_name then inp.value
    else get_input_value_by_name input_name rest default

/-- Modelled from the spec: the `A_CAUSES_B` judgment sentinel (section 3:
the exact encoding is an external contract; we fix the evident string). -/
def A_CAUSES_B : String := "A_CAUSES_B"

/-- Modelled from the spec: the `B_CAUSES_A` judgment sentinel. -/
def B_CAUSES_A : String := "B_CAUSES_A"

/-- Modelled from the spec: the `NO_RELATION` judgment sentinel. -/
def NO_RELATION : String := "NO_RELATION"

/-- A judgment is in the three-value domain of spec section 3. -/
def validJudgment (j : String) : Prop :=
  j = A_CAUSES_B ∨ j = B_CAUSES_A ∨ j = NO_RELATION

instance (j : String) : Decidable (validJudgment j) :=
  decidable_of_iff (j = A_CAUSES_B ∨ j = B_CAUSES_A ∨ j = NO_RELATION) Iff.rfl

/-- Modelled from the spec: the aggregator state of `CausalGraphBuilder`
(missing from the sources; spec section 4.1): a directed graph kept as an
insertion-ordered node list and directed-edge list. -/
structure Aggregator where
  nodes : List String
  edges : List (String × String)
deriving DecidableEq

/-- The empty aggregator (spec section 3, lifecycle: created empty). -/
def Aggregator.empty : Aggregator := ⟨[], []⟩

/-- Add a node if not already present (idempotent). -/
def addNode (g : Aggregator) (v : String) : Aggregator :=
  if v ∈ g.nodes then g else ⟨g.nodes ++ [v], g.edges⟩

/-- Add a directed edge if not already present (idempotent).  Does not touch
the node list. -/
def addEdge (g : Aggregator) (a b : String) : Aggregator :=
  if (a, b) ∈ g.edges then g else ⟨g.nodes, g.edges ++ [(a, b)]⟩

/-- Modelled from the spec: the `InvalidInputError` of spec section 7. -/
inductive AggError where
  | invalidInput
deriving DecidableEq

/-- Modelled from the spec: `update(var_a, var_b, judgment)` of
`CausalGraphBuilder` (spec section 4.1): fail fast on `var_a == var_b` or a
judgment outside the three-value domain; otherwise add both endpoint nodes
and the single directed edge dictated by the judgment (no edge for
`NO_RELATION`). -/
def update (g : Aggregator) (var_a var_b j : String) :
    Except AggError Aggregator :=
  if var_a = var_b then .error .invalidInput
  else if j = A_CAUSES_B then
    .ok (addEdge (addNode (addNode g var_a) var_b) var_a var_b)
  else if j = B_CAUSES_A then
    .ok (addEdge (addNode (addNode g var_a) var_b) var_b var_a)
  else if j = NO_RELATION then
    .ok (addNode (addNode g var_a) var_b)
  else .error .invalidInput

/-- The node-link serialization shape (spec sections 4.1 and 6): a `nodes`
list of ids and a `links` list of `(source, target)` records. -/
structure NodeLink where
  nodes : List String
  links : List (String × String)
deriving DecidableEq

/-- Modelled from the spec: `export()` of `CausalGraphBuilder` (spec
section 4.1): serialize the current state in node-link form. -/
def exportGraph (g : Aggregator) : NodeLink := ⟨g.nodes, g.edges⟩

/-- Modelled from the spec: the hypothetical `import()` of spec
sections 4.1 and 8: rebuild a fresh aggregator from a node-link object by
adding every listed node and then every listed link (with its endpoints). -/
def nodeLinkImport (nl : NodeLink) : Aggregator :=
  nl.links.foldl (fun g l => addEdge (addNode (addNode g l.1) l.2) l.1 l.2)
    (nl.nodes.foldl addNode Aggregator.empty)

/-- Run a sequence of `update` calls (each `(var_a, var_b, judgment)`) from a
given state, stopping at the first failure — the aggregation loop of spec
section 5. -/
def runCalls (g : Aggregator) :
    List (String × String × String) → Except AggError Aggregator
  | [] => .ok g
  | c :: rest =>
    match update g c.1 c.2.1 c.2.2 with
    | .error e => .error e
    | .ok g' => runCalls g' rest

/-- A state is reachable when some sequence of successful `update` calls
produces it from the empty aggregator. -/
def Reachable (g : Aggregator) : Prop :=
  ∃ calls, runCalls Aggregator.empty calls = .ok g

/-- The unordered pair of a call `(var_a, var_b, judgment)`. -/
def callPair (c : String × String × String) : String × String := (c.1, c.2.1)

/-- Two ordered pairs name the same unordered pair. -/
def samePair (p q : String × String) : Prop :=
  (p.1 = q.1 ∧ p.2 = q.2) ∨ (p.1 = q.2 ∧ p.2 = q.1)

instance (p q : String × String) : Decidable (samePair p q) :=
  decidable_of_iff ((p.1 = q.1 ∧ p.2 = q.2) ∨ (p.1 = q.2 ∧ p.2 = q.1)) Iff.rfl

/-- Embeds `list(combinations(df.columns, 2))` from
`src/causal_graph_llm/__init__.py` line 86: all unordered pairs, in
combinations order (lexicographic over the input column order). -/
def pairsOf : List String → List (String × String)
  | [] => []
  | c :: cs => (cs.map fun d => (c, d)) ++ pairsOf cs

/-- The record returned by
`CausalDiscoveryAgentLLM.determine_causal_relationship` as consumed by
`run` (`src/causal_graph_llm/__init__.py` lines 87-93): a `prediction`
judgment plus the agent-output and full-log strings. -/
structure JudgeResult where
  prediction : String
  agent_output : String
  full_log : String

/-- An externally observable effect of `CausalGraphDiscovery.run`: a call to
the judgment process, a `graph_builder.update_graph` call, or a file-connector
operation. -/
inductive RunEvent where
  | judgeCall (a b : String)
  | graphUpdate (a b j : String)
  | fileDelete (name : String)
  | fileCreate (name : String) (content : String)
deriving DecidableEq

/-- Embeds the pair loop of `CausalGraphDiscovery.run`
(`src/causal_graph_llm/__init__.py` lines 86-93): for each pair, call the
judgment process, append to `result_log` and `full_log`, then feed the
prediction to the aggregator.  The second component traces the external
effects in order. -/
def discoveryLoop (judge : String → String → JudgeResult) :
    List (String × String) → Aggregator → List String → List String →
    List RunEvent →
    Except AggError (Aggregator × List String × List String) × List RunEvent
  | [], g, rlog, flog, evs => (.ok (g, rlog, flog), evs)
  | p :: ps, g, rlog, flog, evs =>
    match update g p.1 p.2 (judge p.1 p.2).prediction with
    | .error e => (.error e, evs ++ [.judgeCall p.1 p.2])
    | .ok g' =>
      discoveryLoop judge ps g'
        (rlog ++ [(judge p.1 p.2).agent_output ++ " -> " ++
          (judge p.1 p.2).prediction])
        (flog ++ [(judge p.1 p.2).full_log])
        ((evs ++ [.judgeCall p.1 p.2]) ++
          [.graphUpdate p.1 p.2 (judge p.1 p.2).prediction])

/-- The dictionary returned by `CausalGraphDiscovery.run`: the exported
graph under the `graph` key and the result log under `log`. -/
structure DiscoveryOutput where
  graph : NodeLink
  log : List String
deriving DecidableEq

/-- An exception escaping `CausalGraphDiscovery.run`: either the wrapped
dataset-loading failure or the aggregator's invalid-input failure. -/
inductive RunError where
  | datasetError (msg : String)
  | invalidInput
deriving DecidableEq

/-- Embeds `CausalGraphDiscovery.run` (`src/causal_graph_llm/__init__.py`
lines 68-105).  The dataset load (`pd.read_csv`) is abstracted as an
`Except` already holding either the column list or the failure message `e`;
on failure `run` raises `Error getting dataset: {e}` at once.  Otherwise it
iterates the judgment process over `combinations(df.columns, 2)`, then
deletes and recreates the log file, and returns the exported graph and
result log.  The second component is the trace of external effects. -/
def causalGraphDiscoveryRun (dataset : Except String (List String))
    (judge : String → String → JudgeResult) (file_name : String) :
    Except RunError DiscoveryOutput × List RunEvent :=
  match dataset with
  | .error e => (.error (.datasetError ("Error getting dataset: " ++ e)), [])
  | .ok columns =>
    match discoveryLoop judge (pairsOf columns) Aggregator.empty [] [] [] with
    | (.error _, evs) => (.error .invalidInput, evs)
    | (.ok (g, rlog, flog), evs) =>
      (.ok ⟨exportGraph g, rlog⟩,
       evs ++ [.fileDelete (file_name ++ ".txt"),
               .fileCreate (file_name ++ ".txt")
                 (String.intercalate "\n" flog)])

/-- The pairs on which the judgment process was invoked, read off a trace. -/
def judgeEvents (evs : List RunEvent) : List (String × String) :=
  evs.filterMap fun ev =>
    match ev with
    | .judgeCall a b => some (a, b)
    | _ => none

/-- A link record of a node-link graph fed to `CausalGraphViewer.run`: a
source, a target, and an optional `weight` entry (`none` models a link
object without a `weight` key). -/
structure ViewerLink where
  source : String
  target : String
  weight : Option Int
deriving DecidableEq

/-- The node-link input of `CausalGraphViewer.run`: the `nodes` ids and the
`links` records. -/
structure ViewerGraphData where
  nodes : List String
  links : List ViewerLink

/-- Embeds the per-link branch of `CausalGraphViewer.run`
(`src/causal_graph_viewer/__init__.py` lines 49-54): a link with a `weight`
key equal to `-1` is skipped; any other link is added as a directed edge
from its source to its target (`nx.DiGraph.add_edge` also inserts both
endpoint nodes). -/
def viewerAddLink (g : Aggregator) (l : ViewerLink) : Aggregator :=
  match l.weight with
  | some w =>
    if w ≠ -1 then addEdge (addNode (addNode g l.source) l.target) l.source l.target
    else g
  | none => addEdge (addNode (addNode g l.source) l.target) l.source l.target

/-- Embeds the graph-building phase of `CausalGraphViewer.run`
(`src/causal_graph_viewer/__init__.py` lines 43-54): start from an empty
directed graph, add every listed node, then process every link. -/
def viewerBuildGraph (gd : ViewerGraphData) : Aggregator :=
  gd.links.foldl viewerAddLink (gd.nodes.foldl addNode Aggregator.empty)

/- ### Basic lemmas about the aggregator operations -/

theorem edges_addNode (g : Aggregator) (v : String) :
    (addNode g v).edges = g.edges := by
  unfold addNode; split <;> rfl

theorem nodes_addEdge (g : Aggregator) (a b : String) :
    (addEdge g a b).nodes = g.nodes := by
  unfold addEdge; split <;> rfl

theorem mem_nodes_addNode (g : Aggregator) (v x : String) :
    x ∈ (addNode g v).nodes ↔ x ∈ g.nodes ∨ x = v := by
  unfold addNode
  split
  · rename_i h
    constructor
    · exact Or.inl
    · rintro (hx | rfl)
      · exact hx
      · exact h
  · simp

theorem mem_edges_addEdge (g : Aggregator) (a b : String) (e : String × String) :
    e ∈ (addEdge g a b).edges ↔ e ∈ g.edges ∨ e = (a, b) := by
  unfold addEdge
  split
  · rename_i h
    constructor
    · exact Or.inl
    · rintro (hx | rfl)
      · exact hx
      · exact h
  · simp

theorem addNode_self_of_mem {g : Aggregator} {v : String} (h : v ∈ g.nodes) :
    addNode g v = g := by
  unfold addNode; rw [if_pos h]

theorem addEdge_self_of_mem {g : Aggregator} {a b : String}
    (h : (a, b) ∈ g.edges) : addEdge g a b = g := by
  unfold addEdge; rw [if_pos h]

theorem update_acb (g : Aggregator) {a b : String} (h : a ≠ b) :
    update g a b A_CAUSES_B =
      .ok (addEdge (addNode (addNode g a) b) a b) := by
  unfold update
  rw [if_neg h, if_pos rfl]

theorem update_bca (g : Aggregator) {a b : String} (h : a ≠ b) :
    update g a b B_CAUSES_A =
      .ok (addEdge (addNode (addNode g a) b) b a) := by
  unfold update
  rw [if_neg h, if_neg (by decide), if_pos rfl]

theorem update_nr (g : Aggregator) {a b : String} (h : a ≠ b) :
    update g a b NO_RELATION = .ok (addNode (addNode g a) b) := by
  unfold update
  rw [if_neg h, if_neg (by decide), if_neg (by decide), if_pos rfl]

theorem update_ne_of_ok {g g' : Aggregator} {a b j : String}
    (h : update g a b j = .ok g') : a ≠ b := by
  intro hab
  unfold update at h
  rw [if_pos hab] at h
  exact Except.noConfusion h

theorem update_valid_of_ok {g g' : Aggregator} {a b j : String}
    (h : update g a b j = .ok g') : validJudgment j := by
  unfold update at h
  unfold validJudgment
  split_ifs at h with h1 h2 h3 h4
  · exact Or.inl h2
  · exact Or.inr (Or.inl h3)
  · exact Or.inr (Or.inr h4)

theorem update_mem_nodes {g g' : Aggregator} {a b j : String}
    (h : update g a b j = .ok g') (v : String) :
    v ∈ g'.nodes ↔ v ∈ g.nodes ∨ v = a ∨ v = b := by
  have hab := update_ne_of_ok h
  unfold update at h
  rw [if_neg hab] at h
  split_ifs at h with h1 h2 h3
  · injection h with h
    subst h
    simp [nodes_addEdge, mem_nodes_addNode, or_assoc]
  · injection h with h
    subst h
    simp [nodes_addEdge, mem_nodes_addNode, or_assoc]
  · injection h with h
    subst h
    simp [mem_nodes_addNode, or_assoc]

theorem update_mem_edges {g g' : Aggregator} {a b j : String}
    (h : update g a b j = .ok g') (e : String × String) :
    e ∈ g'.edges ↔ e ∈ g.edges ∨
      (j = A_CAUSES_B ∧ e = (a, b)) ∨ (j = B_CAUSES_A ∧ e = (b, a)) := by
  have hab := update_ne_of_ok h
  unfold update at h
  rw [if_neg hab] at h
  split_ifs at h with h1 h2 h3
  · injection h with h
    subst h
    subst h1
    simp [mem_edges_addEdge, edges_addNode, (by decide : A_CAUSES_B ≠ B_CAUSES_A)]
  · injection h with h
    subst h
    subst h2
    simp [mem_edges_addEdge, edges_addNode, (by decide : B_CAUSES_A ≠ A_CAUSES_B)]
  · injection h with h
    subst h
    simp [edges_addNode, h1, h2]

theorem add_add_edge_self {g : Aggregator} {a b : String}
    (ha : a ∈ g.nodes) (hb : b ∈ g.nodes) (he : (a, b) ∈ g.edges) :
    addEdge (addNode (addNode g a) b) a b = g := by
  rw [addNode_self_of_mem ha, addNode_self_of_mem hb, addEdge_self_of_mem he]

/-- Claim C1: for distinct variables, `A_CAUSES_B` makes the edge
`var_a → var_b` present while the opposite edge is present afterwards only
if it already was before (the call itself never adds it); `B_CAUSES_A`
makes `var_b → var_a` present; `NO_RELATION` leaves the edge set
unchanged. -/
theorem update_edge_direction (g : Aggregator) (var_a var_b : String)
    (h : var_a ≠ var_b) :
    (∀ g', update g var_a var_b A_CAUSES_B = .ok g' →
        (var_a, var_b) ∈ g'.edges ∧
        ((var_b, var_a) ∈ g'.edges ↔ (var_b, var_a) ∈ g.edges)) ∧
    (∀ g', update g var_a var_b B_CAUSES_A = .ok g' →
        (var_b, var_a) ∈ g'.edges ∧
        ((var_a, var_b) ∈ g'.edges ↔ (var_a, var_b) ∈ g.edges)) ∧
    (∀ g', update g var_a var_b NO_RELATION = .ok g' →
        g'.edges = g.edges) := by
  refine ⟨?_, ?_, ?_⟩
  · intro g' hg
    rw [update_acb g h] at hg
    injection hg with hg
    subst hg
    constructor
    · simp [mem_edges_addEdge]
    · simp [mem_edges_addEdge, edges_addNode, Prod.ext_iff, h, Ne.symm h]
  · intro g' hg
    rw [update_bca g h] at hg
    injection hg with hg
    subst hg
    constructor
    · simp [mem_edges_addEdge]
    · simp [mem_edges_addEdge, edges_addNode, Prod.ext_iff, h, Ne.symm h]
  · intro g' hg
    rw [update_nr g h] at hg
    injection hg with hg
    subst hg
    rw [edges_addNode, edges_addNode]

theorem update_edge_direction_witness :
    ("a", "b") ∈ (addEdge (addNode (addNode Aggregator.empty "a") "b") "a" "b").edges ∧
    (("b", "a") ∈ (addEdge (addNode (addNode Aggregator.empty "a") "b") "a" "b").edges ↔
      ("b", "a") ∈ Aggregator.empty.edges) :=
  (update_edge_direction Aggregator.empty "a" "b" (by decide)).1
    (addEdge (addNode (addNode Aggregator.empty "a") "b") "a" "b")
    (update_acb Aggregator.empty (by decide))

/-- Claim C2: `update` fails with `InvalidInputError` whenever the two
variables coincide (for any judgment) or the judgment lies outside the
three-value domain; the error carries no successor state, so the prior
node and edge sets are untouched by the failing call. -/
theorem update_invalid_input (g : Aggregator) (var_a var_b j : String)
    (h : var_a = var_b ∨ ¬ validJudgment j) :
    update g var_a var_b j = .error .invalidInput := by
  unfold update
  rcases h with h | h
  · rw [if_pos h]
  · rcases Decidable.em (var_a = var_b) with hab | hab
    · rw [if_pos hab]
    · unfold validJudgment at h
      push_neg at h
      rw [if_neg hab, if_neg h.1, if_neg h.2.1, if_neg h.2.2]

theorem update_invalid_input_witness :
    update Aggregator.empty "a" "a" A_CAUSES_B = .error .invalidInput ∧
    update Aggregator.empty "a" "b" "MAYBE" = .error .invalidInput :=
  ⟨update_invalid_input Aggregator.empty "a" "a" A_CAUSES_B (Or.inl rfl),
   update_invalid_input Aggregator.empty "a" "b" "MAYBE" (Or.inr (by decide))⟩

/-- Claim C3: a second `update` with the same pair and `A_CAUSES_B`
judgment succeeds and leaves the exported graph exactly as after the first
call. -/
theorem update_idempotent (g g' : Aggregator) (var_a var_b : String)
    (h : update g var_a var_b A_CAUSES_B = .ok g') :
    ∃ g'', update g' var_a var_b A_CAUSES_B = .ok g'' ∧
      exportGraph g'' = exportGraph g' := by
  have hab := update_ne_of_ok h
  rw [update_acb g hab] at h
  injection h with h
  subst h
  have ha : var_a ∈ (addEdge (addNode (addNode g var_a) var_b) var_a var_b).nodes := by
    rw [nodes_addEdge, mem_nodes_addNode, mem_nodes_addNode]
    exact Or.inl (Or.inr rfl)
  have hb : var_b ∈ (addEdge (addNode (addNode g var_a) var_b) var_a var_b).nodes := by
    rw [nodes_addEdge, mem_nodes_addNode]
    exact Or.inr rfl
  have he : (var_a, var_b) ∈ (addEdge (addNode (addNode g var_a) var_b) var_a var_b).edges := by
    rw [mem_edges_addEdge]
    exact Or.inr rfl
  refine ⟨_, update_acb _ hab, ?_⟩
  rw [add_add_edge_self ha hb he]

theorem update_idempotent_witness :
    ∃ g'', update ⟨["a", "b"], [("a", "b")]⟩ "a" "b" A_CAUSES_B = .ok g'' ∧
      exportGraph g'' = exportGraph ⟨["a", "b"], [("a", "b")]⟩ :=
  update_idempotent Aggregator.empty ⟨["a", "b"], [("a", "b")]⟩ "a" "b" rfl

/-- Claim C5: over variables X, Y, Z, the judgments `(X,Y) → A_CAUSES_B`,
`(X,Z) → B_CAUSES_A`, `(Y,Z) → NO_RELATION` produce exactly the node list
`[X, Y, Z]` and the link list `[X → Y, Z → X]`, with no link in either
direction between Y and Z. -/
theorem end_to_end_scenario :
    runCalls Aggregator.empty
        [("X", "Y", A_CAUSES_B), ("X", "Z", B_CAUSES_A), ("Y", "Z", NO_RELATION)] =
      .ok ⟨["X", "Y", "Z"], [("X", "Y"), ("Z", "X")]⟩ ∧
    ("Y", "Z") ∉ (exportGraph ⟨["X", "Y", "Z"], [("X", "Y"), ("Z", "X")]⟩).links ∧
    ("Z", "Y") ∉ (exportGraph ⟨["X", "Y", "Z"], [("X", "Y"), ("Z", "X")]⟩).links := by
  refine ⟨rfl, by decide, by decide⟩

/-- Claim C8: `get_input_value_by_name` returns the value of the first
record whose key equals the requested name (equivalently, of
`List.find?` on the key), the given default when no key matches, and
records situated after the first match never influence the result. -/
theorem get_input_value_first_match :
    (∀ (V : Type) (name : String) (inputs : List (ComponentInput V)) (d : V),
        get_input_value_by_name name inputs d =
          match inputs.find? (fun inp => inp.key == name) with
          | some inp => inp.value
          | none => d) ∧
    (∀ (V : Type) (name : String) (l₁ l₂ l₂' : List (ComponentInput V))
        (inp : ComponentInput V) (d : V), inp.key = name →
        get_input_value_by_name name (l₁ ++ inp :: l₂) d =
          get_input_value_by_name name (l₁ ++ inp :: l₂') d) := by
  constructor
  · intro V name inputs d
    induction inputs with
    | nil => rfl
    | cons x rest ih =>
      unfold get_input_value_by_name
      by_cases hk : x.key = name
      · rw [if_pos hk, List.find?_cons_of_pos _ (by simp [hk])]
      · rw [if_neg hk, List.find?_cons_of_neg _ (by simp [hk]), ih]
  · intro V name l₁ l₂ l₂' inp d h
    induction l₁ with
    | nil =>
      show (if inp.key = name then inp.value else _) =
        (if inp.key = name then inp.value else _)
      rw [if_pos h, if_pos h]
    | cons x rest ih =>
      show (if x.key = name then x.value else _) =
        (if x.key = name then x.value else _)
      by_cases hk : x.key = name
      · rw [if_pos hk, if_pos hk]
      · rw [if_neg hk, if_neg hk]
        exact ih

theorem get_input_value_first_match_witness :
    get_input_value_by_name "k"
        ([(⟨"a", 1⟩ : ComponentInput Nat)] ++ ⟨"k", 2⟩ :: [⟨"k", 3⟩]) 0 =
      get_input_value_by_name "k"
        ([(⟨"a", 1⟩ : ComponentInput Nat)] ++ ⟨"k", 2⟩ :: []) 0 :=
  get_input_value_first_match.2 Nat "k" [⟨"a", 1⟩] [⟨"k", 3⟩] [] ⟨"k", 2⟩ 0 rfl

/-- Claim C10: when the dataset load fails with message `e`,
`CausalGraphDiscovery.run` raises an exception whose message begins with
`Error getting dataset:` and its effect trace is empty — no judgment call,
no graph update, and no log-file operation has occurred. -/
theorem dataset_error_before_effects :
    ∀ (e : String) (judge : String → String → JudgeResult) (file_name : String),
      (causalGraphDiscoveryRun (.error e) judge file_name).2 = [] ∧
      ∃ rest,
        (causalGraphDiscoveryRun (.error e) judge file_name).1 =
          .error (.datasetError ("Error getting dataset:" ++ rest)) := by
  intro e judge file_name
  refine ⟨rfl, " " ++ e, ?_⟩
  show Except.error (RunError.datasetError ("Error getting dataset: " ++ e)) =
    Except.error (RunError.datasetError ("Error getting dataset:" ++ (" " ++ e)))
  rw [← String.append_assoc]
  have hlit : ("Error getting dataset:" ++ " " : String) = "Error getting dataset: " := by
    decide
  rw [hlit]

theorem mem_edges_viewerAddLink (g : Aggregator) (l : ViewerLink)
    (e : String × String) :
    e ∈ (viewerAddLink g l).edges ↔
      e ∈ g.edges ∨ (e = (l.source, l.target) ∧ l.weight ≠ some (-1)) := by
  rcases hw : l.weight with _ | w
  · simp [viewerAddLink, hw, mem_edges_addEdge, edges_addNode]
  · by_cases hne : w = -1
    · subst hne
      simp [viewerAddLink, hw]
    · simp [viewerAddLink, hw, hne, mem_edges_addEdge, edges_addNode]

theorem mem_edges_foldl_viewer (links : List ViewerLink) (g : Aggregator)
    (e : String × String) :
    e ∈ (links.foldl viewerAddLink g).edges ↔
      e ∈ g.edges ∨ ∃ l ∈ links, e = (l.source, l.target) ∧ l.weight ≠ some (-1) := by
  induction links generalizing g with
  | nil => simp
  | cons l rest ih =>
    rw [List.foldl_cons, ih, mem_edges_viewerAddLink]
    constructor
    · rintro ((h | h) | ⟨x, hx, hp⟩)
      · exact Or.inl h
      · exact Or.inr ⟨l, List.mem_cons_self l rest, h⟩
      · exact Or.inr ⟨x, List.mem_cons_of_mem l hx, hp⟩
    · rintro (h | ⟨x, hx, hp⟩)
      · exact Or.inl (Or.inl h)
      · rcases List.mem_cons.mp hx with rfl | hx
        · exact Or.inl (Or.inr hp)
        · exact Or.inr ⟨x, hx, hp⟩

theorem edges_foldl_addNode (ns : List String) (g : Aggregator) :
    (ns.foldl addNode g).edges = g.edges := by
  induction ns generalizing g with
  | nil => rfl
  | cons v rest ih => rw [List.foldl_cons, ih, edges_addNode]

/-- Claim C9: the directed graph `CausalGraphViewer.run` builds contains the
edge `s → t` exactly when some input link has source `s`, target `t`, and
either no `weight` entry or a `weight` other than `-1`; links with
`weight = -1` contribute no edge. -/
theorem viewer_weight_filter :
    ∀ (gd : ViewerGraphData) (s t : String),
      (s, t) ∈ (viewerBuildGraph gd).edges ↔
        ∃ l ∈ gd.links, l.source = s ∧ l.target = t ∧ l.weight ≠ some (-1) := by
  intro gd s t
  unfold viewerBuildGraph
  rw [mem_edges_foldl_viewer, edges_foldl_addNode]
  constructor
  · rintro (h | ⟨l, hl, heq, hw⟩)
    · exact absurd h (List.not_mem_nil _)
    · injection heq with h1 h2
      exact ⟨l, hl, h1.symm, h2.symm, hw⟩
  · rintro ⟨l, hl, hs, ht, hw⟩
    exact Or.inr ⟨l, hl, by rw [hs, ht], hw⟩

/- ### Well-formedness of reachable aggregator states -/

/-- Well-formed aggregator state: no duplicate nodes, no duplicate edges,
and every edge endpoint is a listed node. -/
def WF (g : Aggregator) : Prop :=
  g.nodes.Nodup ∧ g.edges.Nodup ∧ ∀ e ∈ g.edges, e.1 ∈ g.nodes ∧ e.2 ∈ g.nodes

theorem wf_empty : WF Aggregator.empty := by
  refine ⟨List.nodup_nil, List.nodup_nil, ?_⟩
  intro e he
  exact absurd he (List.not_mem_nil e)

theorem wf_addNode {g : Aggregator} (h : WF g) (v : String) :
    WF (addNode g v) := by
  obtain ⟨hn, he, hsub⟩ := h
  unfold addNode
  split
  · exact ⟨hn, he, hsub⟩
  · rename_i hv
    refine ⟨?_, he, ?_⟩
    · simp [List.nodup_append, hn, hv]
    · intro e hemem
      obtain ⟨h1, h2⟩ := hsub e hemem
      exact ⟨List.mem_append_left _ h1, List.mem_append_left _ h2⟩

theorem wf_addEdge {g : Aggregator} {a b : String} (h : WF g)
    (ha : a ∈ g.nodes) (hb : b ∈ g.nodes) : WF (addEdge g a b) := by
  obtain ⟨hn, he, hsub⟩ := h
  unfold addEdge
  split
  · exact ⟨hn, he, hsub⟩
  · rename_i hab
    refine ⟨hn, ?_, ?_⟩
    · simp [List.nodup_append, he, hab]
    · intro e hemem
      rcases List.mem_append.mp hemem with hm | hm
      · exact hsub e hm
      · rcases List.mem_singleton.mp hm with rfl
        exact ⟨ha, hb⟩

theorem wf_update {g g' : Aggregator} {a b j : String} (h : WF g)
    (hu : update g a b j = .ok g') : WF g' := by
  have hab := update_ne_of_ok hu
  unfold update at hu
  rw [if_neg hab] at hu
  split_ifs at hu with h1 h2 h3
  · injection hu with hu
    subst hu
    refine wf_addEdge (wf_addNode (wf_addNode h a) b) ?_ ?_
    · rw [mem_nodes_addNode, mem_nodes_addNode]
      exact Or.inl (Or.inr rfl)
    · rw [mem_nodes_addNode]
      exact Or.inr rfl
  · injection hu with hu
    subst hu
    refine wf_addEdge (wf_addNode (wf_addNode h a) b) ?_ ?_
    · rw [mem_nodes_addNode]
      exact Or.inr rfl
    · rw [mem_nodes_addNode, mem_nodes_addNode]
      exact Or.inl (Or.inr rfl)
  · injection hu with hu
    subst hu
    exact wf_addNode (wf_addNode h a) b

theorem wf_runCalls {g g' : Aggregator} {calls : List (String × String × String)}
    (h : WF g) (hr : runCalls g calls = .ok g') : WF g' := by
  induction calls generalizing g with
  | nil =>
    unfold runCalls at hr
    injection hr with hr
    subst hr
    exact h
  | cons c rest ih =>
    unfold runCalls at hr
    cases hu : update g c.1 c.2.1 c.2.2 with
    | error e =>
      rw [hu] at hr
      exact Except.noConfusion hr
    | ok g1 =>
      rw [hu] at hr
      exact ih (wf_update h hu) hr

theorem reachable_wf {g : Aggregator} (h : Reachable g) : WF g := by
  obtain ⟨calls, hr⟩ := h
  exact wf_runCalls wf_empty hr

/- ### Import reconstruction lemmas -/

theorem foldl_addNode_nodes (ns : List String) (g : Aggregator)
    (h1 : ns.Nodup) (h2 : ∀ v ∈ ns, v ∉ g.nodes) :
    (ns.foldl addNode g).nodes = g.nodes ++ ns := by
  induction ns generalizing g with
  | nil => simp
  | cons v rest ih =>
    rw [List.foldl_cons]
    have hv : v ∉ g.nodes := h2 v (List.mem_cons_self v rest)
    have hAdd : addNode g v = ⟨g.nodes ++ [v], g.edges⟩ := by
      unfold addNode
      rw [if_neg hv]
    rw [hAdd, ih ⟨g.nodes ++ [v], g.edges⟩ (List.nodup_cons.mp h1).2]
    · simp
    · intro x hx
      simp only [List.mem_append, List.mem_singleton]
      rintro (hg | rfl)
      · exact h2 x (List.mem_cons_of_mem v hx) hg
      · exact (List.nodup_cons.mp h1).1 hx

theorem foldl_addLink_eq (es : List (String × String)) (g : Aggregator)
    (hsub : ∀ e ∈ es, e.1 ∈ g.nodes ∧ e.2 ∈ g.nodes)
    (hnd : es.Nodup) (hdisj : ∀ e ∈ es, e ∉ g.edges) :
    es.foldl (fun g l => addEdge (addNode (addNode g l.1) l.2) l.1 l.2) g =
      ⟨g.nodes, g.edges ++ es⟩ := by
  induction es generalizing g with
  | nil =>
    cases g
    simp
  | cons e rest ih =>
    rw [List.foldl_cons]
    obtain ⟨h1, h2⟩ := hsub e (List.mem_cons_self e rest)
    have hstep : addEdge (addNode (addNode g e.1) e.2) e.1 e.2 =
        ⟨g.nodes, g.edges ++ [e]⟩ := by
      rw [addNode_self_of_mem h1, addNode_self_of_mem h2]
      unfold addEdge
      rw [if_neg (hdisj e (List.mem_cons_self e rest))]
    rw [hstep, ih ⟨g.nodes, g.edges ++ [e]⟩]
    · simp
    · intro x hx
      exact hsub x (List.mem_cons_of_mem e hx)
    · exact (List.nodup_cons.mp hnd).2
    · intro x hx
      simp only [List.mem_append, List.mem_singleton]
      rintro (hg | rfl)
      · exact hdisj x (List.mem_cons_of_mem e hx) hg
      · exact (List.nodup_cons.mp hnd).1 hx

/-- Claim C4: for every reachable aggregator state, exporting, importing the
node-link object into a fresh aggregator, and exporting again yields the
same node set and directed-edge set (here: the very same lists). -/
theorem export_import_roundtrip (g : Aggregator) (h : Reachable g) :
    exportGraph (nodeLinkImport (exportGraph g)) = exportGraph g := by
  obtain ⟨hn, he, hsub⟩ := reachable_wf h
  unfold nodeLinkImport exportGraph
  have hnodes : g.nodes.foldl addNode Aggregator.empty = ⟨g.nodes, []⟩ := by
    have h1 := foldl_addNode_nodes g.nodes Aggregator.empty hn
      (by intro v hv; exact List.not_mem_nil v)
    have h2 := edges_foldl_addNode g.nodes Aggregator.empty
    rw [show g.nodes.foldl addNode Aggregator.empty =
      (⟨(g.nodes.foldl addNode Aggregator.empty).nodes,
        (g.nodes.foldl addNode Aggregator.empty).edges⟩ : Aggregator) from rfl,
      h1, h2]
    rfl
  rw [hnodes, foldl_addLink_eq g.edges ⟨g.nodes, []⟩ hsub he
    (by intro e he'; exact List.not_mem_nil e)]
  rfl

theorem export_import_roundtrip_witness :
    exportGraph (nodeLinkImport (exportGraph ⟨["a", "b"], [("a", "b")]⟩)) =
      exportGraph ⟨["a", "b"], [("a", "b")]⟩ :=
  export_import_roundtrip ⟨["a", "b"], [("a", "b")]⟩
    ⟨[("a", "b", A_CAUSES_B)], rfl⟩

/- ### Unordered-pair bookkeeping -/

theorem samePair_symm {p q : String × String} (h : samePair p q) :
    samePair q p := by
  rcases h with ⟨h1, h2⟩ | ⟨h1, h2⟩
  · exact Or.inl ⟨h1.symm, h2.symm⟩
  · exact Or.inr ⟨h2.symm, h1.symm⟩

theorem samePair_swap {p : String × String} {x y : String}
    (h : samePair p (x, y)) : samePair p (y, x) := h.symm

theorem samePair_trans {p q r : String × String} (h1 : samePair p q)
    (h2 : samePair q r) : samePair p r := by
  rcases h1 with ⟨a1, a2⟩ | ⟨a1, a2⟩ <;> rcases h2 with ⟨b1, b2⟩ | ⟨b1, b2⟩
  · exact Or.inl ⟨a1.trans b1, a2.trans b2⟩
  · exact Or.inr ⟨a1.trans b1, a2.trans b2⟩
  · exact Or.inr ⟨a1.trans b2, a2.trans b1⟩
  · exact Or.inl ⟨a1.trans b2, a2.trans b1⟩

theorem pairwise_samePair_eq {calls : List (String × String × String)}
    (hp : List.Pairwise (fun c d => ¬ samePair (callPair c) (callPair d)) calls)
    {c d : String × String × String} (hc : c ∈ calls) (hd : d ∈ calls)
    (h : samePair (callPair c) (callPair d)) : c = d := by
  induction calls with
  | nil => cases hc
  | cons a rest ih =>
    rcases List.mem_cons.mp hc with rfl | hc' <;>
      rcases List.mem_cons.mp hd with rfl | hd'
    · rfl
    · exact absurd h ((List.pairwise_cons.mp hp).1 d hd')
    · exact absurd (samePair_symm h) ((List.pairwise_cons.mp hp).1 c hc')
    · exact ih (List.pairwise_cons.mp hp).2 hc' hd'

/- ### Characterizing the result of a call sequence -/

theorem runCalls_mem_nodes {calls : List (String × String × String)}
    {g0 g : Aggregator} (h : runCalls g0 calls = .ok g) (v : String) :
    v ∈ g.nodes ↔ v ∈ g0.nodes ∨ ∃ c ∈ calls, v = c.1 ∨ v = c.2.1 := by
  induction calls generalizing g0 with
  | nil =>
    unfold runCalls at h
    injection h with h
    subst h
    simp
  | cons c rest ih =>
    unfold runCalls at h
    cases hu : update g0 c.1 c.2.1 c.2.2 with
    | error e =>
      rw [hu] at h
      exact Except.noConfusion h
    | ok g1 =>
      rw [hu] at h
      rw [ih h, update_mem_nodes hu v]
      constructor
      · rintro ((hv | hv | hv) | ⟨d, hd, hvd⟩)
        · exact Or.inl hv
        · exact Or.inr ⟨c, List.mem_cons_self c rest, Or.inl hv⟩
        · exact Or.inr ⟨c, List.mem_cons_self c rest, Or.inr hv⟩
        · exact Or.inr ⟨d, List.mem_cons_of_mem c hd, hvd⟩
      · rintro (hv | ⟨d, hd, hvd⟩)
        · exact Or.inl (Or.inl hv)
        · rcases List.mem_cons.mp hd with rfl | hd'
          · rcases hvd with hv | hv
            · exact Or.inl (Or.inr (Or.inl hv))
            · exact Or.inl (Or.inr (Or.inr hv))
          · exact Or.inr ⟨d, hd', hvd⟩

theorem runCalls_mem_edges {calls : List (String × String × String)}
    {g0 g : Aggregator} (h : runCalls g0 calls = .ok g) (e : String × String) :
    e ∈ g.edges ↔ e ∈ g0.edges ∨ ∃ c ∈ calls,
      (c.2.2 = A_CAUSES_B ∧ e = (c.1, c.2.1)) ∨
      (c.2.2 = B_CAUSES_A ∧ e = (c.2.1, c.1)) := by
  induction calls generalizing g0 with
  | nil =>
    unfold runCalls at h
    injection h with h
    subst h
    simp
  | cons c rest ih =>
    unfold runCalls at h
    cases hu : update g0 c.1 c.2.1 c.2.2 with
    | error er =>
      rw [hu] at h
      exact Except.noConfusion h
    | ok g1 =>
      rw [hu] at h
      rw [ih h, update_mem_edges hu e]
      constructor
      · rintro ((hv | hv | hv) | ⟨d, hd, hvd⟩)
        · exact Or.inl hv
        · exact Or.inr ⟨c, List.mem_cons_self c rest, Or.inl hv⟩
        · exact Or.inr ⟨c, List.mem_cons_self c rest, Or.inr hv⟩
        · exact Or.inr ⟨d, List.mem_cons_of_mem c hd, hvd⟩
      · rintro (hv | ⟨d, hd, hvd⟩)
        · exact Or.inl (Or.inl hv)
        · rcases List.mem_cons.mp hd with rfl | hd'
          · rcases hvd with hv | hv
            · exact Or.inl (Or.inr (Or.inl hv))
            · exact Or.inl (Or.inr (Or.inr hv))
          · exact Or.inr ⟨d, hd', hvd⟩

theorem runCalls_nodes_mono {calls : List (String × String × String)}
    {g0 g : Aggregator} (h : runCalls g0 calls = .ok g) :
    ∀ v ∈ g0.nodes, v ∈ g.nodes := by
  intro v hv
  rw [runCalls_mem_nodes h v]
  exact Or.inl hv

theorem runCalls_calls_ne {calls : List (String × String × String)}
    {g0 g : Aggregator} (h : runCalls g0 calls = .ok g) :
    ∀ c ∈ calls, c.1 ≠ c.2.1 := by
  induction calls generalizing g0 with
  | nil =>
    intro c hc
    cases hc
  | cons c rest ih =>
    unfold runCalls at h
    cases hu : update g0 c.1 c.2.1 c.2.2 with
    | error er =>
      rw [hu] at h
      exact Except.noConfusion h
    | ok g1 =>
      rw [hu] at h
      intro d hd
      rcases List.mem_cons.mp hd with rfl | hd'
      · exact update_ne_of_ok hu
      · exact ih h d hd'

theorem runCalls_append_ok {g0 g1 g : Aggregator}
    {l1 l2 : List (String × String × String)}
    (h1 : runCalls g0 l1 = .ok g1) (h : runCalls g0 (l1 ++ l2) = .ok g) :
    runCalls g1 l2 = .ok g := by
  induction l1 generalizing g0 with
  | nil =>
    unfold runCalls at h1
    injection h1 with h1
    subst h1
    exact h
  | cons c rest ih =>
    unfold runCalls at h1
    rw [List.cons_append] at h
    unfold runCalls at h
    cases hu : update g0 c.1 c.2.1 c.2.2 with
    | error er =>
      rw [hu] at h1
      exact Except.noConfusion h1
    | ok gm =>
      rw [hu] at h1 h
      exact ih h1 h

theorem edge_from_call {calls : List (String × String × String)}
    {g : Aggregator} (hok : runCalls Aggregator.empty calls = .ok g)
    {x y : String} (hxy : (x, y) ∈ g.edges) :
    ∃ c ∈ calls, (c.2.2 = A_CAUSES_B ∧ (x, y) = (c.1, c.2.1)) ∨
      (c.2.2 = B_CAUSES_A ∧ (x, y) = (c.2.1, c.1)) := by
  have h := (runCalls_mem_edges hok (x, y)).mp hxy
  simpa [Aggregator.empty] using h

/-- Claim C6: under the caller contract that each unordered pair is
submitted at most once, a successful call sequence from the empty
aggregator yields a graph with at most one directed edge per unordered
pair (never both directions), whose node set is exactly the variables seen
across the processed pairs; the node set never shrinks along the sequence,
and once calls cover every unordered pair of a variable set `V` (with all
endpoints drawn from `V`), the exported node set equals `V`. -/
theorem aggregator_invariants (calls : List (String × String × String))
    (g : Aggregator)
    (hok : runCalls Aggregator.empty calls = .ok g)
    (hdist : List.Pairwise (fun c d => ¬ samePair (callPair c) (callPair d)) calls) :
    (∀ x y, (x, y) ∈ g.edges → (y, x) ∉ g.edges) ∧
    (∀ v, v ∈ g.nodes ↔ ∃ c ∈ calls, v = c.1 ∨ v = c.2.1) ∧
    (∀ calls₁ calls₂ g₁, calls = calls₁ ++ calls₂ →
        runCalls Aggregator.empty calls₁ = .ok g₁ →
        ∀ v ∈ g₁.nodes, v ∈ g.nodes) ∧
    (∀ V : Finset String, 2 ≤ V.card →
        (∀ c ∈ calls, c.1 ∈ V ∧ c.2.1 ∈ V) →
        (∀ a ∈ V, ∀ b ∈ V, a ≠ b →
            ∃ c ∈ calls, samePair (callPair c) (a, b)) →
        ∀ v, v ∈ (exportGraph g).nodes ↔ v ∈ V) := by
  have hnodes : ∀ v, v ∈ g.nodes ↔ ∃ c ∈ calls, v = c.1 ∨ v = c.2.1 := by
    intro v
    rw [runCalls_mem_nodes hok v]
    simp [Aggregator.empty]
  refine ⟨?_, hnodes, ?_, ?_⟩
  · intro x y hxy hyx
    obtain ⟨c, hc, hcs⟩ := edge_from_call hok hxy
    obtain ⟨d, hd, hds⟩ := edge_from_call hok hyx
    have hspc : samePair (callPair c) (x, y) := by
      rcases hcs with ⟨_, heq⟩ | ⟨_, heq⟩
      · injection heq with e1 e2
        exact Or.inl ⟨e1.symm, e2.symm⟩
      · injection heq with e1 e2
        exact Or.inr ⟨e2.symm, e1.symm⟩
    have hspd : samePair (callPair d) (y, x) := by
      rcases hds with ⟨_, heq⟩ | ⟨_, heq⟩
      · injection heq with e1 e2
        exact Or.inl ⟨e1.symm, e2.symm⟩
      · injection heq with e1 e2
        exact Or.inr ⟨e2.symm, e1.symm⟩
    have hcd : c = d :=
      pairwise_samePair_eq hdist hc hd
        (samePair_trans hspc (samePair_symm (samePair_swap hspd)))
    subst hcd
    have hne := runCalls_calls_ne hok c hc
    rcases hcs with ⟨hjA, heq1⟩ | ⟨hjB, heq1⟩ <;>
      rcases hds with ⟨hjA', heq2⟩ | ⟨hjB', heq2⟩
    · injection heq1 with e1 e2
      injection heq2 with f1 f2
      exact hne (e1.symm.trans f2)
    · exact absurd (hjA.symm.trans hjB') (by decide)
    · exact absurd (hjB.symm.trans hjA') (by decide)
    · injection heq1 with e1 e2
      injection heq2 with f1 f2
      exact hne (e2.symm.trans f1)
  · intro calls₁ calls₂ g₁ heq h1 v hv
    subst heq
    exact runCalls_nodes_mono (runCalls_append_ok h1 hok) v hv
  · intro V hcard hin hcover v
    show v ∈ g.nodes ↔ v ∈ V
    rw [hnodes v]
    constructor
    · rintro ⟨c, hc, rfl | rfl⟩
      · exact (hin c hc).1
      · exact (hin c hc).2
    · intro hv
      have hcard1 : 1 < V.card := by omega
      obtain ⟨b, hb, hbv⟩ := Finset.exists_ne_of_one_lt_card hcard1 v
      obtain ⟨c, hc, hsp⟩ := hcover v hv b hb (Ne.symm hbv)
      rcases hsp with ⟨h1, _⟩ | ⟨_, h2⟩
      · exact ⟨c, hc, Or.inl h1.symm⟩
      · exact ⟨c, hc, Or.inr h2.symm⟩

theorem aggregator_invariants_witness :
    (∀ x y, (x, y) ∈ (Aggregator.mk ["a", "b"] [("a", "b")]).edges →
        (y, x) ∉ (Aggregator.mk ["a", "b"] [("a", "b")]).edges) ∧
    (∀ v, v ∈ (Aggregator.mk ["a", "b"] [("a", "b")]).nodes ↔
        ∃ c ∈ [("a", "b", A_CAUSES_B)], v = c.1 ∨ v = c.2.1) ∧
    (∀ calls₁ calls₂ g₁, [("a", "b", A_CAUSES_B)] = calls₁ ++ calls₂ →
        runCalls Aggregator.empty calls₁ = .ok g₁ →
        ∀ v ∈ g₁.nodes, v ∈ (Aggregator.mk ["a", "b"] [("a", "b")]).nodes) ∧
    (∀ V : Finset String, 2 ≤ V.card →
        (∀ c ∈ [("a", "b", A_CAUSES_B)], c.1 ∈ V ∧ c.2.1 ∈ V) →
        (∀ a ∈ V, ∀ b ∈ V, a ≠ b →
            ∃ c ∈ [("a", "b", A_CAUSES_B)], samePair (callPair c) (a, b)) →
        ∀ v, v ∈ (exportGraph (Aggregator.mk ["a", "b"] [("a", "b")])).nodes ↔ v ∈ V) :=
  aggregator_invariants [("a", "b", A_CAUSES_B)] ⟨["a", "b"], [("a", "b")]⟩ rfl
    (by simp)

/- ### Properties of the combinations enumeration -/

theorem pairsOf_mem {l : List String} {p : String × String}
    (h : p ∈ pairsOf l) : p.1 ∈ l ∧ p.2 ∈ l := by
  induction l with
  | nil => cases h
  | cons c cs ih =>
    unfold pairsOf at h
    rcases List.mem_append.mp h with h | h
    · obtain ⟨d, hd, rfl⟩ := List.mem_map.mp h
      exact ⟨List.mem_cons_self c cs, List.mem_cons_of_mem c hd⟩
    · obtain ⟨h1, h2⟩ := ih h
      exact ⟨List.mem_cons_of_mem c h1, List.mem_cons_of_mem c h2⟩

theorem pairsOf_ne {l : List String} (hnd : l.Nodup) :
    ∀ p ∈ pairsOf l, p.1 ≠ p.2 := by
  induction l with
  | nil =>
    intro p hp
    cases hp
  | cons c cs ih =>
    intro p hp
    unfold pairsOf at hp
    rcases List.mem_append.mp hp with h | h
    · obtain ⟨d, hd, rfl⟩ := List.mem_map.mp h
      intro hcd
      change c = d at hcd
      exact (List.nodup_cons.mp hnd).1 (hcd ▸ hd)
    · exact ih (List.nodup_cons.mp hnd).2 p h

theorem countP_decide_eq_one {cs : List String} (hnd : cs.Nodup) {b : String}
    (hb : b ∈ cs) :
    List.countP (fun d => decide (d = b)) cs = 1 := by
  induction cs with
  | nil => cases hb
  | cons x xs ih =>
    rw [List.countP_cons]
    rcases List.mem_cons.mp hb with rfl | hb'
    · have hnin := (List.nodup_cons.mp hnd).1
      rw [List.countP_eq_zero.mpr]
      · simp
      · intro d hd
        simp only [decide_eq_true_eq]
        intro hdb
        exact hnin (hdb ▸ hd)
    · have hxb : ¬ (x = b) := fun h => (List.nodup_cons.mp hnd).1 (h ▸ hb')
      rw [ih (List.nodup_cons.mp hnd).2 hb']
      simp [hxb]

theorem countP_pairsOf_zero {cs : List String} {a b : String}
    (h : a ∉ cs ∨ b ∉ cs) :
    List.countP (fun p => decide (samePair p (a, b))) (pairsOf cs) = 0 := by
  rw [List.countP_eq_zero]
  intro p hp
  simp only [decide_eq_true_eq]
  intro hsp
  obtain ⟨h1, h2⟩ := pairsOf_mem hp
  rcases hsp with ⟨ha', hb'⟩ | ⟨ha', hb'⟩
  · change p.1 = a at ha'
    change p.2 = b at hb'
    rcases h with h | h
    · exact h (ha' ▸ h1)
    · exact h (hb' ▸ h2)
  · change p.1 = b at ha'
    change p.2 = a at hb'
    rcases h with h | h
    · exact h (hb' ▸ h2)
    · exact h (ha' ▸ h1)

theorem pairsOf_count_one {l : List String} (hnd : l.Nodup) {a b : String}
    (ha : a ∈ l) (hb : b ∈ l) (hab : a ≠ b) :
    List.countP (fun p => decide (samePair p (a, b))) (pairsOf l) = 1 := by
  induction l with
  | nil => cases ha
  | cons c cs ih =>
    obtain ⟨hc_nin, hcs_nd⟩ := List.nodup_cons.mp hnd
    unfold pairsOf
    rw [List.countP_append, List.countP_map]
    rcases List.mem_cons.mp ha with rfl | ha' <;> rcases List.mem_cons.mp hb with heq | hb'
    · exact absurd heq.symm hab
    · have hmap : List.countP
          ((fun p => decide (samePair p (a, b))) ∘ fun d => (a, d)) cs = 1 := by
        rw [List.countP_congr, countP_decide_eq_one hcs_nd hb']
        intro d hd
        simp only [Function.comp_apply, decide_eq_true_eq]
        constructor
        · rintro (⟨_, h2⟩ | ⟨h1, _⟩)
          · exact h2
          · exact absurd h1 hab
        · intro hdb
          exact Or.inl ⟨rfl, hdb⟩
      rw [hmap, countP_pairsOf_zero (Or.inl hc_nin)]
    · subst heq
      have hmap : List.countP
          ((fun p => decide (samePair p (a, b))) ∘ fun d => (b, d)) cs = 1 := by
        rw [List.countP_congr, countP_decide_eq_one hcs_nd ha']
        intro d hd
        simp only [Function.comp_apply, decide_eq_true_eq]
        constructor
        · rintro (⟨h1, _⟩ | ⟨_, h2⟩)
          · exact absurd h1.symm hab
          · exact h2
        · intro hda
          exact Or.inr ⟨rfl, hda⟩
      rw [hmap, countP_pairsOf_zero (Or.inr hc_nin)]
    · have hmap : List.countP
          ((fun p => decide (samePair p (a, b))) ∘ fun d => (c, d)) cs = 0 := by
        rw [List.countP_eq_zero]
        intro d hd
        simp only [Function.comp_apply, decide_eq_true_eq]
        rintro (⟨h1, _⟩ | ⟨h1, _⟩)
        · change c = a at h1
          exact hc_nin (h1 ▸ ha')
        · change c = b at h1
          exact hc_nin (h1 ▸ hb')
      rw [hmap, ih hcs_nd ha' hb']

/- ### Relating the discovery loop to the aggregator call sequence -/

/-- The `update` call sequence induced by running the judgment process over
a list of pairs. -/
def callsOf (judge : String → String → JudgeResult)
    (ps : List (String × String)) : List (String × String × String) :=
  ps.map fun p => (p.1, p.2, (judge p.1 p.2).prediction)

theorem discoveryLoop_ok (judge : String → String → JudgeResult)
    (ps : List (String × String)) :
    ∀ (g : Aggregator) (rlog flog : List String) (evs : List RunEvent),
      (∀ p ∈ ps, p.1 ≠ p.2 ∧ validJudgment (judge p.1 p.2).prediction) →
      ∃ g' rlog' flog' evs',
        discoveryLoop judge ps g rlog flog evs = (.ok (g', rlog', flog'), evs') ∧
        runCalls g (callsOf judge ps) = .ok g' ∧
        judgeEvents evs' = judgeEvents evs ++ ps := by
  induction ps with
  | nil =>
    intro g rlog flog evs _
    exact ⟨g, rlog, flog, evs, rfl, rfl, by simp⟩
  | cons p rest ih =>
    intro g rlog flog evs hps
    obtain ⟨hne, hval⟩ := hps p (List.mem_cons_self p rest)
    have hsucc : ∃ g1, update g p.1 p.2 (judge p.1 p.2).prediction = .ok g1 := by
      rcases hval with hj | hj | hj
      · exact ⟨_, by rw [hj]; exact update_acb g hne⟩
      · exact ⟨_, by rw [hj]; exact update_bca g hne⟩
      · exact ⟨_, by rw [hj]; exact update_nr g hne⟩
    obtain ⟨g1, hg1⟩ := hsucc
    have hstep : discoveryLoop judge (p :: rest) g rlog flog evs =
        discoveryLoop judge rest g1
          (rlog ++ [(judge p.1 p.2).agent_output ++ " -> " ++
            (judge p.1 p.2).prediction])
          (flog ++ [(judge p.1 p.2).full_log])
          ((evs ++ [.judgeCall p.1 p.2]) ++
            [.graphUpdate p.1 p.2 (judge p.1 p.2).prediction]) := by
      simp only [discoveryLoop]
      rw [hg1]
    obtain ⟨g', rlog', flog', evs', hloop, hrun, hjev⟩ :=
      ih g1
        (rlog ++ [(judge p.1 p.2).agent_output ++ " -> " ++
          (judge p.1 p.2).prediction])
        (flog ++ [(judge p.1 p.2).full_log])
        ((evs ++ [.judgeCall p.1 p.2]) ++
          [.graphUpdate p.1 p.2 (judge p.1 p.2).prediction])
        (fun q hq => hps q (List.mem_cons_of_mem p hq))
    refine ⟨g', rlog', flog', evs', hstep.trans hloop, ?_, ?_⟩
    · show (match update g p.1 p.2 (judge p.1 p.2).prediction with
        | .error e => (.error e : Except AggError Aggregator)
        | .ok g2 => runCalls g2 (callsOf judge rest)) = .ok g'
      rw [hg1]
      exact hrun
    · rw [hjev]
      simp [judgeEvents, List.filterMap_append]

/-- Claim C7: for a dataset with duplicate-free columns and a judgment
process returning in-domain predictions, `CausalGraphDiscovery.run` invokes
the judgment process exactly on the `combinations`-ordered pair list (so
exactly once per unordered pair), feeds each prediction into the aggregator,
and returns the aggregator's exported graph as the `graph` field of its
output. -/
theorem run_pairs_once_and_graph (columns : List String)
    (judge : String → String → JudgeResult) (file_name : String)
    (hnd : columns.Nodup)
    (hvalid : ∀ a b, validJudgment (judge a b).prediction) :
    judgeEvents (causalGraphDiscoveryRun (.ok columns) judge file_name).2 =
      pairsOf columns ∧
    (∀ a b, a ∈ columns → b ∈ columns → a ≠ b →
        List.countP (fun p => decide (samePair p (a, b))) (pairsOf columns) = 1) ∧
    (∃ g, runCalls Aggregator.empty (callsOf judge (pairsOf columns)) = .ok g ∧
        ∃ rlog, (causalGraphDiscoveryRun (.ok columns) judge file_name).1 =
          .ok ⟨exportGraph g, rlog⟩) := by
  have hps : ∀ p ∈ pairsOf columns,
      p.1 ≠ p.2 ∧ validJudgment (judge p.1 p.2).prediction :=
    fun p hp => ⟨pairsOf_ne hnd p hp, hvalid p.1 p.2⟩
  obtain ⟨g', rlog', flog', evs', hloop, hrun, hjev⟩ :=
    discoveryLoop_ok judge (pairsOf columns) Aggregator.empty [] [] [] hps
  have hj2 : judgeEvents evs' = pairsOf columns := by
    rw [hjev]
    rfl
  have hred : causalGraphDiscoveryRun (.ok columns) judge file_name =
      (.ok ⟨exportGraph g', rlog'⟩,
       evs' ++ [RunEvent.fileDelete (file_name ++ ".txt"),
                RunEvent.fileCreate (file_name ++ ".txt")
                  (String.intercalate "\n" flog')]) := by
    show (match discoveryLoop judge (pairsOf columns) Aggregator.empty [] [] [] with
      | (.error _, evs) =>
        ((.error .invalidInput : Except RunError DiscoveryOutput), evs)
      | (.ok (g, rlog, flog), evs) =>
        (.ok ⟨exportGraph g, rlog⟩,
         evs ++ [RunEvent.fileDelete (file_name ++ ".txt"),
                 RunEvent.fileCreate (file_name ++ ".txt")
                   (String.intercalate "\n" flog)])) = _
    rw [hloop]
  refine ⟨?_, ?_, g', hrun, rlog', ?_⟩
  · rw [hred]
    show judgeEvents (evs' ++
      [RunEvent.fileDelete (file_name ++ ".txt"),
       RunEvent.fileCreate (file_name ++ ".txt")
         (String.intercalate "\n" flog')]) = pairsOf columns
    unfold judgeEvents
    rw [List.filterMap_append]
    unfold judgeEvents at hj2
    rw [hj2]
    simp
  · intro a b ha hb hab
    exact pairsOf_count_one hnd ha hb hab
  · rw [hred]

theorem run_pairs_once_and_graph_witness :
    judgeEvents (causalGraphDiscoveryRun (.ok ["a", "b"])
        (fun _ _ => ⟨A_CAUSES_B, "out", "log"⟩) "run").2 =
      pairsOf ["a", "b"] ∧
    (∀ a b, a ∈ ["a", "b"] → b ∈ ["a", "b"] → a ≠ b →
        List.countP (fun p => decide (samePair p (a, b)))
          (pairsOf ["a", "b"]) = 1) ∧
    (∃ g, runCalls Aggregator.empty
        (callsOf (fun _ _ => ⟨A_CAUSES_B, "out", "log"⟩)
          (pairsOf ["a", "b"])) = .ok g ∧
      ∃ rlog, (causalGraphDiscoveryRun (.ok ["a", "b"])
          (fun _ _ => ⟨A_CAUSES_B, "out", "log"⟩) "run").1 =
        .ok ⟨exportGraph g, rlog⟩) :=
  run_pairs_once_and_graph ["a", "b"]
    (fun _ _ => ⟨A_CAUSES_B, "out", "log"⟩) "run"
    (by decide) (fun _ _ => Or.inl rfl)
